import Mathlib

/-!
Verification development for `telegram_text_splitter/splitter.py`.

The Python module is embedded shallowly over `List Char`.  Python strings
become `List Char`; `str.rfind(sub, a, b)` (which returns -1 on failure)
becomes an `Option Nat`; the regular expressions used by the source are all
of a very restricted form (a literal, optionally with a one-character
negative lookbehind `(?<!\\)` / `(?<!` + "`" + `)`, a one-character negative
lookahead, or a trailing `\s*`), and each one is implemented as a direct
left-to-right scanner that mirrors `re.finditer` / `re.findall` / `re.sub`
semantics: scanning advances one character at a time, a match is emitted
greedily and scanning resumes after the matched text (non-overlapping
matches), and lookbehind inspects the character of the *original* string
immediately before the match.

All definitions are structural recursions, so every model function can be
evaluated by `decide` / `rfl` on concrete inputs.
-/

namespace TgSplit

abbrev Chars := List Char

/-- Characters of a string literal, used to write `List Char` constants. -/
def chs (s : String) : Chars := s.data

/-- Python `\s` for ASCII text: the class `[ \t\n\r\v\f]`. -/
def pyWs (c : Char) : Bool :=
  c = ' ' || c = '\t' || c = '\n' || c = '\r' || c = '\x0b' || c = '\x0c'

/-- The whitespace class `[ \t\n\r]` of the module's `compiled_patterns`. -/
def ws14 (c : Char) : Bool :=
  c = ' ' || c = '\t' || c = '\n' || c = '\r'

/-- The character set of `str.lstrip("\n ")` in the assembler loop. -/
def nlSp (c : Char) : Bool :=
  c = '\n' || c = ' '

/-- Python `\w` on ASCII text: alphanumeric or underscore (the fence
language extraction never depends on non-ASCII word characters). -/
def isWordChar (c : Char) : Bool :=
  c.isAlphanum || c = '_'

/-- All positions (overlapping allowed) at which `pat` occurs in the
scanned list; `i` is the index of the head of the scanned list.  Used to
model `str.rfind`, which looks for any occurrence. -/
def findAllPos (pat : Chars) : Nat → Chars → List Nat
  | _, [] => []
  | i, c :: rest =>
    (if pat.isPrefixOf (c :: rest) then [i] else []) ++ findAllPos pat (i + 1) rest

/-- Python `s.rfind(pat, a, b)`: the largest index `p` with `a ≤ p`,
`p + |pat| ≤ b`, and `pat` occurring at `p` in `s`; `none` for Python's -1.
(`str.rfind` requires the occurrence to lie inside the slice `s[a:b]`.) -/
def rfindSub (s pat : Chars) (a b : Nat) : Option Nat :=
  ((findAllPos pat 0 s).filter (fun i => a ≤ i && i + pat.length ≤ b)).getLast?

/-- Non-overlapping occurrence positions of the plain literal `pat`
(no lookbehind), as computed by `re.finditer`: after a match the scan
resumes after the matched text.  `skip` counts characters still inside the
previous match, `i` is the current index. -/
def litPositions (pat : Chars) : Nat → Nat → Chars → List Nat
  | _, _, [] => []
  | Nat.succ k, i, _ :: rest => litPositions pat k (i + 1) rest
  | 0, i, c :: rest =>
    if pat ≠ [] && pat.isPrefixOf (c :: rest)
    then i :: litPositions pat (pat.length - 1) (i + 1) rest
    else litPositions pat 0 (i + 1) rest

/-- `re.sub(pat, "", s)` for a plain literal `pat`, non-overlapping. -/
def litRemove (pat : Chars) : Nat → Chars → Chars
  | _, [] => []
  | Nat.succ k, _ :: rest => litRemove pat k rest
  | 0, c :: rest =>
    if pat ≠ [] && pat.isPrefixOf (c :: rest)
    then litRemove pat (pat.length - 1) rest
    else c :: litRemove pat 0 rest

/-- Occurrence positions of `(?<!\\)\$\$` (an unescaped `$$`), mirroring
`re.finditer`: `prev` is the character just before the scan point in the
original string (`none` at the start). -/
def ddPositions : Option Char → Nat → Nat → Chars → List Nat
  | _, _, _, [] => []
  | _, Nat.succ k, i, c :: rest => ddPositions (some c) k (i + 1) rest
  | prev, 0, i, c :: rest =>
    if c = '$' && rest.head? = some '$' && prev ≠ some '\\'
    then i :: ddPositions (some c) 1 (i + 1) rest
    else ddPositions (some c) 0 (i + 1) rest

/-- `re.sub(r"(?<!\\)\$\$", "", s)`. -/
def ddRemove : Option Char → Bool → Chars → Chars
  | _, _, [] => []
  | _, true, c :: rest => ddRemove (some c) false rest
  | prev, false, c :: rest =>
    if c = '$' && rest.head? = some '$' && prev ≠ some '\\'
    then ddRemove (some c) true rest
    else c :: ddRemove (some c) false rest

/-- Count of `(?<!\\)\$(?!\$)` matches: an unescaped `$` not followed by
another `$` (the source applies this to the string with `$$` removed). -/
def sdCount : Option Char → Chars → Nat
  | _, [] => 0
  | prev, c :: rest =>
    (if c = '$' && prev ≠ some '\\' && rest.head? ≠ some '$' then 1 else 0)
      + sdCount (some c) rest

/-- Count of isolated single backticks, the pattern whose lookbehind and
lookahead both exclude an adjacent backtick (applied after removing all
triple-backtick markers). -/
def sbtCount : Option Char → Chars → Nat
  | _, [] => 0
  | prev, c :: rest =>
    (if c = '`' && prev ≠ some '`' && rest.head? ≠ some '`' then 1 else 0)
      + sbtCount (some c) rest

/-- Occurrence positions of `(?<!\\)\\X\s*` where `X` is `[` or `]`: an
unescaped `\[` or `\]` with trailing whitespace absorbed into the match
(the absorbed whitespace only affects where the scan resumes, exactly as
in `re.finditer`). -/
def brPositions (close : Char) : Option Char → Nat → Nat → Chars → List Nat
  | _, _, _, [] => []
  | _, Nat.succ k, i, c :: rest => brPositions close (some c) k (i + 1) rest
  | prev, 0, i, c :: rest =>
    if c = '\\' && rest.head? = some close && prev ≠ some '\\'
    then i :: brPositions close (some c) (1 + (rest.tail.takeWhile pyWs).length) (i + 1) rest
    else brPositions close (some c) 0 (i + 1) rest

/-! ## The source functions (`splitter.py`) -/

/-- `is_balanced(pattern, chunk)` (splitter.py:27).  The three patterns it
is called with — `r"```"`, `r"\$\$"`, `r"\\\\]"` — denote the literal
texts ``` ``` ```, `$$`, and `\\]` (two backslashes then a bracket; note
the source's `r"\\\\]"` really is a two-backslash literal, and `r"\$\$"`
has no lookbehind), so occurrence counting reduces to plain literal
counting. -/
def is_balanced (pat : Chars) (chunk : Chars) : Bool :=
  (litPositions pat 0 0 chunk).length % 2 == 0

/-- `_get_closing_delimiter` (splitter.py:421). -/
def _get_closing_delimiter (cp : Chars) : Chars :=
  if (chs "```").isPrefixOf cp then chs "\n```"
  else if (chs "$$").isPrefixOf cp then chs "\n$$"
  else if (chs "\\[").isPrefixOf cp then chs "\n\\]"
  else if cp = chs "$" then chs "$"
  else if cp = chs "`" then chs "`"
  else []

/-- `_handle_continuation` (splitter.py:74).  `none` models Python `None`
(the continuation strings produced by the resolver are never empty, so
Python truthiness agrees with `Option.isSome`). -/
def _handle_continuation (chunk : Chars) (continuation : Option Chars)
    (current_pending : Option Chars) : Chars × Option Chars :=
  match continuation with
  | some cp => (chunk ++ _get_closing_delimiter cp, some cp)
  | none =>
    match current_pending with
    | none => (chunk, none)
    | some pd =>
      if (chs "```").isPrefixOf pd then
        if is_balanced (chs "```") chunk then (chunk, none)
        else (chunk ++ _get_closing_delimiter pd, some pd)
      else if (chs "$$").isPrefixOf pd then
        if is_balanced (chs "$$") chunk then (chunk, none)
        else (chunk ++ _get_closing_delimiter pd, some pd)
      else if (chs "\\[").isPrefixOf pd then
        if is_balanced (chs "\\\\]") chunk then (chunk, none)
        else (chunk ++ _get_closing_delimiter pd, some pd)
      else (chunk ++ _get_closing_delimiter pd, some pd)

/-- Length of the literal part matched by the first of the five
`compiled_patterns` (splitter.py:10) whose literal follows the leading
whitespace run: ``` ``` ``` (3), `$$` (2), `\[` (2), the duplicated `$$`
pattern (2), or ``` `` ``` (2); `0` when none matches. -/
def stripLitLen (rest : Chars) : Nat :=
  if (chs "```").isPrefixOf rest then 3
  else if (chs "$$").isPrefixOf rest then 2
  else if (chs "\\[").isPrefixOf rest then 2
  else if (chs "``").isPrefixOf rest then 2
  else 0

/-- `_strip_leading_empty_blocks` (splitter.py:119).  Each compiled
pattern is `^[ \t\n\r]*` followed by a literal, so a match consumes the
maximal leading whitespace run plus that literal; only the first matching
pattern is applied, and a match resets both continuation fields. -/
def _strip_leading_empty_blocks (chunk : Chars) (continuation : Option Chars)
    (current_pending : Option Chars) : Chars × Option Chars × Option Chars :=
  let ws := chunk.takeWhile ws14
  let n := stripLitLen (chunk.drop ws.length)
  if n = 0 then (chunk, continuation, current_pending)
  else (chunk.drop (ws.length + n), none, none)

/-- The inner helper `initial_candidate` of `find_safe_split`
(splitter.py:168): prefer the last paragraph break, then the last line
break, then the last space before `limit`; else `limit`. -/
def initial_candidate (s : Chars) (limit : Nat) : Nat :=
  match rfindSub s (chs "\n\n") 0 limit with
  | some p => p + 2
  | none =>
    match rfindSub s (chs "\n") 0 limit with
    | some p => p + 1
    | none =>
      match rfindSub s (chs " ") 0 limit with
      | some p => p + 1
      | none => limit

/-- The inner helper `unsafe_at` of `find_safe_split` (splitter.py:185):
a prefix is unsafe when any of the five delimiter counts indicates an
open region. -/
def unsafe_at (pfx : Chars) : Bool :=
  ((litPositions (chs "```") 0 0 pfx).length % 2 == 1)
  || ((ddPositions none 0 0 pfx).length % 2 == 1)
  || ((brPositions ']' none 0 0 pfx).length < (brPositions '[' none 0 0 pfx).length)
  || (sdCount none (ddRemove none false pfx) % 2 == 1)
  || (sbtCount none (litRemove (chs "```") 0 pfx) % 2 == 1)

/-- `find_new_line_position_from_end` (splitter.py:223). -/
def find_new_line_position_from_end (text : Chars)
    (target_pos block_start min_distance : Nat) : Nat :=
  match rfindSub text (chs "\n") block_start target_pos with
  | some p => if block_start + min_distance < p then p + 1 else target_pos
  | none => target_pos

/-- The block kinds of `detect_block_context` (splitter.py:234). -/
inductive BlockKind where
  | code_fence
  | display_math
  | bracket_math
  | inline_code
  | inline_math
deriving DecidableEq, Repr

/-- `detect_block_context` (splitter.py:234): which protected region is
open at the end of `pfx`, and where its last opening delimiter sits. -/
def detect_block_context (pfx : Chars) : Option (BlockKind × Nat) :=
  let fencePs := litPositions (chs "```") 0 0 pfx
  if fencePs.length % 2 == 1 then some (.code_fence, fencePs.getLast?.getD 0)
  else
    let ddPs := ddPositions none 0 0 pfx
    if ddPs.length % 2 == 1 then some (.display_math, ddPs.getLast?.getD 0)
    else
      let obPs := brPositions '[' none 0 0 pfx
      let cbPs := brPositions ']' none 0 0 pfx
      if cbPs.length < obPs.length then some (.bracket_math, obPs.getLast?.getD 0)
      else
        let wt := litRemove (chs "```") 0 pfx
        if sbtCount none wt % 2 == 1 then
          some (.inline_code, (rfindSub pfx (chs "`") 0 pfx.length).getD 0)
        else
          let wd := ddRemove none false pfx
          if sdCount none wd % 2 == 1 then
            some (.inline_math, (rfindSub pfx (chs "$") 0 pfx.length).getD 0)
          else none

/-- `PRIORITY 2` of `split_latex_equations` (splitter.py:56): try the
break characters `+`, `-`, `=`, `\\` in order; a hit too close to the
block start falls through to the next break character. -/
def firstBreak (text : Chars) (target block_start min_distance : Nat) :
    List Chars → Option Nat
  | [] => none
  | bc :: rest =>
    match rfindSub text bc 0 target with
    | some p =>
      if block_start + min_distance < p then some (p + 1)
      else firstBreak text target block_start min_distance rest
    | none => firstBreak text target block_start min_distance rest

/-- `split_latex_equations` (splitter.py:35): newline, then mathematical
break points, then space, else the target position `max_len - |contPfx|`.
(`contPfx` is the continuation that will reopen the block.) -/
def split_latex_equations (text : Chars) (max_len block_start : Nat)
    (contPfx : Chars) (min_distance : Nat) : Nat × Chars :=
  let target := max_len - contPfx.length
  let nlHit :=
    match rfindSub text (chs "\n") 0 target with
    | some p => if block_start + min_distance < p then some (p + 1) else none
    | none => none
  match nlHit with
  | some sp => (sp, contPfx)
  | none =>
    match firstBreak text target block_start min_distance
        [chs "+", chs "-", chs "=", chs "\\\\"] with
    | some sp => (sp, contPfx)
    | none =>
      match rfindSub text (chs " ") 0 target with
      | some p =>
        if block_start + min_distance < p then (p + 1, contPfx)
        else (target, contPfx)
      | none => (target, contPfx)

/-- Language-tag extraction of the code-fence branch of
`smart_split_block` (splitter.py:284): `re.search(r"```(\w*)", window)`
finds the first triple backtick in the 20-character window and captures
the word characters following it. -/
def fenceLanguage : Chars → Chars
  | [] => []
  | c :: rest =>
    if c = '`' && rest.head? = some '`' && rest.tail.head? = some '`'
    then rest.tail.tail.takeWhile isWordChar
    else fenceLanguage rest

/-- `smart_split_block` (splitter.py:276).  The Python fallback
`return max_len, None` at line 314 is unreachable because `block_type`
always is one of the five kinds, which the match covers. -/
def smart_split_block (text : Chars) (max_len : Nat) (bk : BlockKind)
    (block_start : Nat) : Nat × Option Chars :=
  match bk with
  | .code_fence =>
    let window := (text.drop block_start).take 20
    let language := fenceLanguage window
    let contPfx :=
      if language.isEmpty then chs "```\n" else chs "```" ++ language ++ ['\n']
    let target := max_len - 3
    (find_new_line_position_from_end text target block_start 10, some contPfx)
  | .display_math =>
    let r := split_latex_equations text max_len block_start (chs "$$\n") 1
    (r.1, some r.2)
  | .bracket_math =>
    let r := split_latex_equations text max_len block_start (chs "\\[\n") 1
    (r.1, some r.2)
  | .inline_math =>
    let r := split_latex_equations text max_len block_start (chs "$") 1
    (r.1, some r.2)
  | .inline_code => (max_len - 1, some (chs "`"))

/-- The rollback `while` loop of `find_safe_split` (splitter.py:323):
roll the candidate back to the previous occurrence of the literal text
`\n\n` (sic — the source uses the raw string `r"\n\n"`, four characters),
else the previous line break, else the previous space, clamped at
`max_len - 1`, re-checking safety each time; if no boundary exists the
loop sets the candidate to 1 and breaks.  Each iteration strictly
decreases the candidate, so `fuel = candidate + 1` never runs out; the
fuel-exhaustion branch returns the current candidate. -/
def rollbackF (text : Chars) (max_len : Nat) : Nat → Nat → Nat
  | 0, candidate => candidate
  | fuel + 1, candidate =>
    if candidate = 0 then candidate
    else if unsafe_at (text.take candidate) = false then candidate
    else
      match rfindSub text (chs "\\n\\n") 0 (candidate - 1) with
      | some pp => rollbackF text max_len fuel (min (pp + 2) (max_len - 1))
      | none =>
        match rfindSub text (chs "\n") 0 (candidate - 1) with
        | some pl => rollbackF text max_len fuel (min (pl + 1) (max_len - 1))
        | none =>
          match rfindSub text (chs " ") 0 (candidate - 1) with
          | some ps => rollbackF text max_len fuel (min (ps + 1) (max_len - 1))
          | none => 1

/-- Which return site of `find_safe_split` produced the result:
`fits` = the whole text fits (line 164); `checked` = a candidate that
passed the `unsafe_at` safety check (lines 344/365); `zero` = the
defensive `candidate <= 0` fallback (line 362); `smart` = smart split of
an oversized block (line 355); `forced` = the forced split at `max_len`
(line 358). -/
inductive FsTag where
  | fits
  | checked
  | zero
  | smart (bk : BlockKind)
  | forced
deriving DecidableEq, Repr

structure FsOut where
  pos : Nat
  continuation : Option Chars
  tag : FsTag
deriving DecidableEq, Repr

/-- `find_safe_split` (splitter.py:149), instrumented with the return-site
tag.  Positions are `Nat` with Python's `-1`/`None` as `none`; all `Nat`
subtractions (`max_len - 1`, `max_len - 3`) occur only in states where the
Python value is nonnegative, so truncation never diverges from the
source. -/
def find_safe_split_x (text : Chars) (max_len : Nat) : FsOut :=
  if text.length ≤ max_len then ⟨text.length, none, .fits⟩
  else
    let cand0 := initial_candidate text max_len
    if unsafe_at (text.take cand0) then
      let c2 := rollbackF text max_len (cand0 + 1) cand0
      if 0 < c2 ∧ unsafe_at (text.take c2) = false then
        ⟨min c2 text.length, none, .checked⟩
      else
        match detect_block_context (text.take (max_len - 1)) with
        | some (bk, bs) =>
          let sp := smart_split_block text max_len bk bs
          ⟨sp.1, sp.2, .smart bk⟩
        | none => ⟨max_len, none, .forced⟩
    else
      if cand0 = 0 then ⟨min text.length max_len, none, .zero⟩
      else ⟨min cand0 text.length, none, .checked⟩

/-- `find_safe_split`'s visible result `(split_pos, continuation)`. -/
def find_safe_split (text : Chars) (max_len : Nat) : Nat × Option Chars :=
  let r := find_safe_split_x text max_len
  (r.pos, r.continuation)

/-- One iteration of the assembler loop of `split_markdown_into_chunks`
(splitter.py:384-415), instrumented with ghost data: the resolver output
`fs`, the split position actually used (`posUsed`, after the defensive
`split_pos <= 0` guard), the effective continuation (`contEff`, cleared
by that guard), whether the guard fired (`defensive`), the pending
continuation carried in (`pendingIn`), the raw slice of the remainder
that went into the chunk (`core`), the characters dropped from the new
remainder by `lstrip("\n ")` (`wsDropped`) and by
`_strip_leading_empty_blocks` (`bsDropped`), the emitted `chunk`, the new
remainder `rest`, and the pending continuation carried out
(`pendingOut`). -/
structure Round where
  fs : FsOut
  posUsed : Nat
  contEff : Option Chars
  defensive : Bool
  pendingIn : Option Chars
  core : Chars
  chunk : Chars
  wsDropped : Chars
  bsDropped : Chars
  rest : Chars
  pendingOut : Option Chars
deriving DecidableEq, Repr

/-- Steps 6-7 of the assembler loop (splitter.py:404-415): advance the
remainder past the consumed slice, stripping leading newline/space at a
natural boundary, then apply the leading-empty-block cleanup when a
continuation was active and the remainder got short.  Returns
`(wsDropped, bsDropped, rest, pendingOut)`. -/
def advance (max_len : Nat) (afterPos : Chars) (contActive : Bool)
    (contEff pend1 : Option Chars) : Chars × Chars × Chars × Option Chars :=
  let wsDropped := if contActive then [] else afterPos.takeWhile nlSp
  let rest1 := if contActive then afterPos else afterPos.dropWhile nlSp
  if rest1.length < max_len ∧ contActive = true then
    let st := _strip_leading_empty_blocks rest1 contEff pend1
    (wsDropped, rest1.take (rest1.length - st.1.length), st.1, st.2.2)
  else
    (wsDropped, [], rest1, pend1)

def stepRound (max_len : Nat) (remaining : Chars) (pending : Option Chars) : Round :=
  let fs := find_safe_split_x remaining max_len
  let defensive := fs.pos == 0
  let posUsed := if fs.pos = 0 then min remaining.length max_len else fs.pos
  let contEff := if fs.pos = 0 then none else fs.continuation
  let core := remaining.take posUsed
  let chunk0 := (pending.getD []) ++ core
  let hc := _handle_continuation chunk0 contEff pending
  let afterPos := remaining.drop posUsed
  let contActive := contEff.isSome || pending.isSome
  let adv := advance max_len afterPos contActive contEff hc.2
  { fs := fs, posUsed := posUsed, contEff := contEff, defensive := defensive,
    pendingIn := pending, core := core, chunk := hc.1,
    wsDropped := adv.1, bsDropped := adv.2.1,
    rest := adv.2.2.1, pendingOut := adv.2.2.2 }

/-- The assembler loop, fuel-indexed.  Returns the rounds performed and
the leftover remainder (nonempty leftover means the fuel ran out before
the Python loop would have finished — with `max_len = 0` the Python loop
in fact never finishes). -/
def runSplit (max_len : Nat) : Nat → Chars → Option Chars → List Round × Chars
  | 0, remaining, _ => ([], remaining)
  | fuel + 1, remaining, pending =>
    if remaining.isEmpty then ([], remaining)
    else
      let r := stepRound max_len remaining pending
      let p := runSplit max_len fuel r.rest r.pendingOut
      (r :: p.1, p.2)

/-- `split_markdown_into_chunks` (splitter.py:368).  `text.length` fuel
suffices whenever `max_len ≥ 1` (each round strictly shortens the
remainder, see the termination theorem below). -/
def split_markdown_into_chunks (text : Chars) (max_len : Nat) : List Chars :=
  if text.isEmpty then []
  else ((runSplit max_len text.length text none).1).map Round.chunk

/-! ## Specification-side definitions

These follow the wording of the specification (not the source); they are
used to state the claims. -/

/-- Modelled from the spec: "after trimming trailing whitespace". -/
def rstripTrailing (l : Chars) : Chars :=
  (l.reverse.dropWhile pyWs).reverse

/-- The five continuation shapes named by claim C10: a code-fence reopener
`` ``` ``+word+newline, a display-math reopener, a bracket-math reopener,
a bare inline-math dollar, or a bare inline-code backtick. -/
def contShape (c : Chars) : Prop :=
  c = chs "$" ∨ c = chs "`" ∨ c = chs "$$\n" ∨ c = chs "\\[\n" ∨
  ∃ w : Chars, w.all isWordChar = true ∧ c = chs "```" ++ w ++ chs "\n"

/-- The possible texts appended to a chunk by `_handle_continuation`:
nothing, or one of the five closing delimiters of the lookup table. -/
def closerLike (l : Chars) : Bool :=
  l == [] || l == chs "\n```" || l == chs "\n$$" || l == chs "\n\\]"
    || l == chs "$" || l == chs "`"

/-- Shape of the text removed from the remainder by the leading-empty-block
cleanup: empty, or a whitespace run followed by one of the four opener
literals of `compiled_patterns`. -/
def bsShape (l : Chars) : Bool :=
  l == [] ||
    (let rest := l.drop (l.takeWhile ws14).length
     rest == chs "```" || rest == chs "$$" || rest == chs "\\[" || rest == chs "``")

/-! ## Concrete inputs used in counterexamples and witnesses -/

/-- A balanced input whose first chunk is emitted by the (non-forced)
display-math smart split yet has an odd count of unescaped inline `$`. -/
def c1txt : Chars := chs "$ $$\n" ++ List.replicate 40 'A' ++ chs "\n$$ $"

/-- An oversized code fence with no internal newline: the smart split cuts
at `maxLen - 3` and appends the 4-character closer `"\n```"`. -/
def c2txt : Chars := chs "```" ++ List.replicate 60 'a'

/-- A display-math block spanning three chunks whose closing `$$` is
deleted from the remainder by `_strip_leading_empty_blocks`. -/
def c3txt : Chars := chs "$$\n" ++ List.replicate 40 'B' ++ chs "\n$$"

/-- Input separating the rollback behaviours: a real paragraph break at
offset 2, a lone line break at offset 6, and an unsafe initial candidate
inside the display-math region opened at offset 10. -/
def c6txt : Chars := chs "AB\n\nCD\nEF $$GH\n\nIJ" ++ List.replicate 30 'x'

/-- An oversized inline-math region containing a space, so the smart split
cuts after the space rather than at `maxLen - 1`. -/
def c7txt : Chars := chs "$aaaa " ++ List.replicate 23 'a'

/-- An oversized inline-code region with no boundary characters. -/
def c7w : Chars := chs "`" ++ List.replicate 30 'a'

/-- An oversized inline-math region with no boundary characters. -/
def c7w2 : Chars := chs "$" ++ List.replicate 30 'a'

/-- An oversized code fence with a language tag, for the C10 witness. -/
def c10f : Chars := chs "```py\ncode code code code" ++ List.replicate 30 'x'

/-- A plain text whose first round goes through the safety-checked path. -/
def c1w : Chars := chs "aaaa bbbb cccc"

/-! ## Basic lemmas about the helpers -/

theorem getLast?_mem {α : Type} {l : List α} {a : α} (h : l.getLast? = some a) :
    a ∈ l := by
  obtain ⟨hne, rfl⟩ := List.mem_getLast?_eq_getLast (Option.mem_def.mpr h)
  exact List.getLast_mem hne

/-- A successful `rfind` respects the slice bounds. -/
theorem rfindSub_bounds {s pat : Chars} {a b p : Nat}
    (h : rfindSub s pat a b = some p) : a ≤ p ∧ p + pat.length ≤ b := by
  have hm := getLast?_mem h
  have := List.of_mem_filter hm
  simpa using this

theorem rfindSub_add_one_le {s : Chars} {c : Char} {a b p : Nat}
    (h : rfindSub s [c] a b = some p) : p + 1 ≤ b :=
  (rfindSub_bounds h).2

/-- `initial_candidate` never exceeds the limit. -/
theorem initial_candidate_le (s : Chars) (m : Nat) : initial_candidate s m ≤ m := by
  unfold initial_candidate
  split
  · next p h => exact (rfindSub_bounds h).2
  · split
    · next p h => exact (rfindSub_bounds h).2
    · split
      · next p h => exact (rfindSub_bounds h).2
      · exact le_rfl

/-- `initial_candidate` is positive whenever the limit is. -/
theorem initial_candidate_pos (s : Chars) (m : Nat) (hm : 1 ≤ m) :
    1 ≤ initial_candidate s m := by
  unfold initial_candidate
  split
  · omega
  · split
    · omega
    · split
      · omega
      · exact hm

theorem unsafe_at_nil : unsafe_at [] = false := rfl

/-- The rollback loop's result stays below the limit. -/
theorem rollbackF_le (t : Chars) (m : Nat) (f c : Nat) (hc : c ≤ m) (hm : 1 ≤ m) :
    rollbackF t m f c ≤ m := by
  induction f generalizing c with
  | zero => simpa [rollbackF] using hc
  | succ f ih =>
    unfold rollbackF
    split
    · exact hc
    · split
      · exact hc
      · split
        · next p _ => exact ih _ (le_trans (min_le_right _ _) (by omega))
        · split
          · next p _ => exact ih _ (le_trans (min_le_right _ _) (by omega))
          · split
            · next p _ => exact ih _ (le_trans (min_le_right _ _) (by omega))
            · exact hm

/-- The rollback loop's result is positive for limits at least 4. -/
theorem rollbackF_pos (t : Chars) (m : Nat) (f c : Nat) (hc : 1 ≤ c) (hm : 4 ≤ m) :
    1 ≤ rollbackF t m f c := by
  induction f generalizing c with
  | zero => simpa [rollbackF] using hc
  | succ f ih =>
    unfold rollbackF
    split
    · omega
    · split
      · exact hc
      · split
        · next p _ => exact ih _ (by omega)
        · split
          · next p _ => exact ih _ (by omega)
          · split
            · next p _ => exact ih _ (by omega)
            · exact le_rfl

/-- `firstBreak` cuts no later than the target when all break literals are
nonempty. -/
theorem firstBreak_le {t : Chars} {target bs md sp : Nat} {pats : List Chars}
    (hne : ∀ bc ∈ pats, 1 ≤ bc.length)
    (h : firstBreak t target bs md pats = some sp) : sp ≤ target := by
  induction pats with
  | nil => simp [firstBreak] at h
  | cons bc rest ih =>
    unfold firstBreak at h
    split at h
    · next p hp =>
      split at h
      · have := (rfindSub_bounds hp).2
        have h1 := hne bc (by simp)
        cases h; omega
      · exact ih (fun x hx => hne x (by simp [hx])) h
    · exact ih (fun x hx => hne x (by simp [hx])) h

/-- `firstBreak` results are positive (always one past a found position). -/
theorem firstBreak_pos {t : Chars} {target bs md sp : Nat} {pats : List Chars}
    (h : firstBreak t target bs md pats = some sp) : 1 ≤ sp := by
  induction pats with
  | nil => simp [firstBreak] at h
  | cons bc rest ih =>
    unfold firstBreak at h
    split at h
    · split at h
      · cases h; omega
      · exact ih h
    · exact ih h

/-- `split_latex_equations` returns its continuation unchanged. -/
theorem split_latex_equations_snd (t : Chars) (m bs : Nat) (cp : Chars) (md : Nat) :
    (split_latex_equations t m bs cp md).2 = cp := by
  unfold split_latex_equations
  dsimp only
  split
  · rfl
  · split
    · rfl
    · split
      · split <;> rfl
      · rfl

/-- `split_latex_equations` cuts no later than `m - |cp|`. -/
theorem split_latex_equations_le (t : Chars) (m bs : Nat) (cp : Chars) (md : Nat) :
    (split_latex_equations t m bs cp md).1 ≤ m - cp.length := by
  unfold split_latex_equations
  dsimp only
  split
  · next sp h =>
    split at h
    · next p hp =>
      split at h
      · cases h
        exact (rfindSub_bounds hp).2
      · exact absurd h (by simp)
    · exact absurd h (by simp)
  · next hnl =>
    split
    · next sp h =>
      exact firstBreak_le (by intro bc hbc; fin_cases hbc <;> simp [chs]) h
    · split
      · next p hp =>
        split
        · exact (rfindSub_bounds hp).2
        · exact le_rfl
      · exact le_rfl

/-- `split_latex_equations` cuts at a positive position when the target is
positive. -/
theorem split_latex_equations_pos (t : Chars) (m bs : Nat) (cp : Chars) (md : Nat)
    (h : 1 ≤ m - cp.length) : 1 ≤ (split_latex_equations t m bs cp md).1 := by
  unfold split_latex_equations
  dsimp only
  split
  · next sp hsp =>
    split at hsp
    · split at hsp
      · cases hsp; omega
      · exact absurd hsp (by simp)
    · exact absurd hsp (by simp)
  · split
    · next sp hsp => exact firstBreak_pos hsp
    · split
      · split
        · omega
        · exact h
      · exact h

/-- `find_new_line_position_from_end` stays at or before the target. -/
theorem find_new_line_le (t : Chars) (tp bs md : Nat) :
    find_new_line_position_from_end t tp bs md ≤ tp := by
  unfold find_new_line_position_from_end
  split
  · next p hp =>
    split
    · exact (rfindSub_bounds hp).2
    · exact le_rfl
  · exact le_rfl

/-- Position bound for `smart_split_block`. -/
theorem smart_split_block_le (t : Chars) (m : Nat) (bk : BlockKind) (bs : Nat) :
    (smart_split_block t m bk bs).1 ≤ m := by
  cases bk with
  | code_fence =>
    simp only [smart_split_block]
    exact le_trans (find_new_line_le t (m - 3) bs 10) (by omega)
  | display_math =>
    simpa [smart_split_block] using
      le_trans (split_latex_equations_le t m bs (chs "$$\n") 1) (by omega)
  | bracket_math =>
    simpa [smart_split_block] using
      le_trans (split_latex_equations_le t m bs (chs "\\[\n") 1) (by omega)
  | inline_math =>
    simpa [smart_split_block] using
      le_trans (split_latex_equations_le t m bs (chs "$") 1) (by omega)
  | inline_code => simp [smart_split_block]

/-- Positivity for `smart_split_block` when the limit is at least 4. -/
theorem smart_split_block_pos (t : Chars) (m : Nat) (bk : BlockKind) (bs : Nat)
    (hm : 4 ≤ m) : 1 ≤ (smart_split_block t m bk bs).1 := by
  cases bk with
  | code_fence =>
    simp only [smart_split_block]
    unfold find_new_line_position_from_end
    split
    · split
      · omega
      · omega
    · omega
  | display_math =>
    simpa [smart_split_block] using
      split_latex_equations_pos t m bs (chs "$$\n") 1 (by simp [chs]; omega)
  | bracket_math =>
    simpa [smart_split_block] using
      split_latex_equations_pos t m bs (chs "\\[\n") 1 (by simp [chs]; omega)
  | inline_math =>
    simpa [smart_split_block] using
      split_latex_equations_pos t m bs (chs "$") 1 (by simp [chs]; omega)
  | inline_code => simp [smart_split_block]; omega

/-- Exhaustive description of `find_safe_split_x` by return site. -/
theorem find_safe_split_x_cases (t : Chars) (m : Nat) :
    (t.length ≤ m ∧ find_safe_split_x t m = ⟨t.length, none, .fits⟩) ∨
    (∃ cand, 0 < cand ∧ unsafe_at (t.take cand) = false ∧ cand ≤ m ∧
       find_safe_split_x t m = ⟨min cand t.length, none, .checked⟩) ∨
    (find_safe_split_x t m = ⟨min t.length m, none, .zero⟩) ∨
    (∃ bk bs, detect_block_context (t.take (m - 1)) = some (bk, bs) ∧
       1 ≤ m ∧ m < t.length ∧
       find_safe_split_x t m =
         ⟨(smart_split_block t m bk bs).1, (smart_split_block t m bk bs).2, .smart bk⟩) ∨
    (1 ≤ m ∧ m < t.length ∧ find_safe_split_x t m = ⟨m, none, .forced⟩) := by
  unfold find_safe_split_x
  dsimp only
  split
  · next h => exact Or.inl ⟨h, rfl⟩
  · next hlen =>
    have hc0le := initial_candidate_le t m
    split
    · next hunsafe =>
      have hc0pos : 0 < initial_candidate t m := by
        rcases Nat.eq_zero_or_pos (initial_candidate t m) with h0 | h1
        · rw [h0, List.take_zero] at hunsafe
          exact absurd hunsafe (by decide)
        · exact h1
      have hm1 : 1 ≤ m := le_trans hc0pos hc0le
      split
      · next hchk =>
        exact Or.inr (Or.inl ⟨_, hchk.1, hchk.2, rollbackF_le t m _ _ hc0le hm1, rfl⟩)
      · split
        · next bk bs hdet =>
          exact Or.inr (Or.inr (Or.inr (Or.inl ⟨bk, bs, hdet, hm1, by omega, rfl⟩)))
        · exact Or.inr (Or.inr (Or.inr (Or.inr ⟨hm1, by omega, rfl⟩)))
    · next hsafe =>
      split
      · exact Or.inr (Or.inr (Or.inl rfl))
      · next hne =>
        refine Or.inr (Or.inl ⟨initial_candidate t m, by omega, ?_, hc0le, rfl⟩)
        simpa using hsafe

/-- The resolver's split position never exceeds the limit. -/
theorem fs_pos_le (t : Chars) (m : Nat) : (find_safe_split_x t m).pos ≤ m := by
  rcases find_safe_split_x_cases t m with ⟨h, he⟩ | ⟨c, _, _, hc, he⟩ | he
    | ⟨bk, bs, _, _, _, he⟩ | ⟨_, _, he⟩
  · rw [he]; exact h
  · rw [he]; exact le_trans (min_le_left _ _) hc
  · rw [he]; exact min_le_right _ _
  · rw [he]; exact smart_split_block_le t m bk bs
  · rw [he]

/-- The `checked` tag certifies a safety-checked positive candidate. -/
theorem find_checked_spec (t : Chars) (m : Nat)
    (h : (find_safe_split_x t m).tag = FsTag.checked) :
    ∃ cand, 0 < cand ∧ unsafe_at (t.take cand) = false ∧
      (find_safe_split_x t m).pos = min cand t.length ∧
      (find_safe_split_x t m).continuation = none := by
  rcases find_safe_split_x_cases t m with ⟨_, he⟩ | ⟨c, hc1, hc2, _, he⟩ | he
    | ⟨bk, bs, _, _, _, he⟩ | ⟨_, _, he⟩
  · rw [he] at h; simp at h
  · exact ⟨c, hc1, hc2, by rw [he], by rw [he]⟩
  · rw [he] at h; simp at h
  · rw [he] at h; simp at h
  · rw [he] at h; simp at h

/-- The `smart` tag certifies a detected block context with the result
coming from `smart_split_block`. -/
theorem find_smart_spec (t : Chars) (m : Nat) (bk : BlockKind)
    (h : (find_safe_split_x t m).tag = FsTag.smart bk) :
    ∃ bs, detect_block_context (t.take (m - 1)) = some (bk, bs) ∧
      (find_safe_split_x t m).pos = (smart_split_block t m bk bs).1 ∧
      (find_safe_split_x t m).continuation = (smart_split_block t m bk bs).2 := by
  rcases find_safe_split_x_cases t m with ⟨_, he⟩ | ⟨c, _, _, _, he⟩ | he
    | ⟨bk', bs, hdet, _, _, he⟩ | ⟨_, _, he⟩
  · rw [he] at h; simp at h
  · rw [he] at h; simp at h
  · rw [he] at h; simp at h
  · rw [he] at h
    simp only [FsTag.smart.injEq] at h
    subst h
    exact ⟨bs, hdet, by rw [he], by rw [he]⟩
  · rw [he] at h; simp at h

/-- Claim C4's amended bound: for non-empty input and a limit of at least
4, the resolver's position lies in `(0, len(text)]`. -/
theorem fs_pos_bounds (t : Chars) (m : Nat) (h1 : t ≠ []) (h4 : 4 ≤ m) :
    0 < (find_safe_split_x t m).pos ∧ (find_safe_split_x t m).pos ≤ t.length := by
  have hlen : 1 ≤ t.length := List.length_pos.mpr h1
  rcases find_safe_split_x_cases t m with ⟨h, he⟩ | ⟨c, hc1, _, _, he⟩ | he
    | ⟨bk, bs, _, _, hml, he⟩ | ⟨_, hml, he⟩
  · rw [he]; exact ⟨hlen, le_rfl⟩
  · rw [he]
    exact ⟨lt_min hc1 hlen, min_le_right _ _⟩
  · rw [he]
    exact ⟨lt_min hlen (by omega), min_le_left _ _⟩
  · rw [he]
    refine ⟨smart_split_block_pos t m bk bs h4, ?_⟩
    exact le_trans (smart_split_block_le t m bk bs) (le_of_lt hml)
  · rw [he]; exact ⟨show 0 < m by omega, le_of_lt hml⟩

/-! ## Lemmas about one assembler round -/

theorem isPrefixOf_length_le {p l : Chars} (h : p.isPrefixOf l = true) :
    p.length ≤ l.length :=
  (List.isPrefixOf_iff_prefix.mp h).length_le

theorem isPrefixOf_eq_take {p l : Chars} (h : p.isPrefixOf l = true) :
    l.take p.length = p :=
  (List.prefix_iff_eq_take.mp (List.isPrefixOf_iff_prefix.mp h)).symm

/-- `stripLitLen` never exceeds the length of its argument. -/
theorem stripLitLen_le (r : Chars) : stripLitLen r ≤ r.length := by
  unfold stripLitLen
  split
  · next h => simpa [chs] using isPrefixOf_length_le h
  · split
    · next h => simpa [chs] using isPrefixOf_length_le h
    · split
      · next h => simpa [chs] using isPrefixOf_length_le h
      · split
        · next h => simpa [chs] using isPrefixOf_length_le h
        · exact Nat.zero_le _

/-- `_strip_leading_empty_blocks` only ever drops a prefix. -/
theorem strip_fst_drop (c : Chars) (a b : Option Chars) :
    ∃ k, k ≤ c.length ∧ (_strip_leading_empty_blocks c a b).1 = c.drop k := by
  unfold _strip_leading_empty_blocks
  dsimp only
  split
  · exact ⟨0, Nat.zero_le _, rfl⟩
  · refine ⟨(c.takeWhile ws14).length + stripLitLen (c.drop (c.takeWhile ws14).length),
      ?_, rfl⟩
    have h1 := stripLitLen_le (c.drop (c.takeWhile ws14).length)
    have h2 : (c.takeWhile ws14).length ≤ c.length := (List.takeWhile_prefix ws14).length_le
    have h3 : (c.drop (c.takeWhile ws14).length).length
        = c.length - (c.takeWhile ws14).length := List.length_drop _ _
    omega

theorem takeWhile_append_of_all {p : Char → Bool} (l1 l2 : Chars) (h : l1.all p = true) :
    (l1 ++ l2).takeWhile p = l1 ++ l2.takeWhile p := by
  induction l1 with
  | nil => simp
  | cons a tl ih =>
    simp only [List.all_cons, Bool.and_eq_true] at h
    simp [List.takeWhile_cons, h.1, ih h.2]

theorem takeWhile_append_drop_length (p : Char → Bool) (l : Chars) :
    l.takeWhile p ++ l.drop (l.takeWhile p).length = l := by
  induction l with
  | nil => simp
  | cons a t ih =>
    by_cases h : p a
    · simp [List.takeWhile_cons, h, ih]
    · simp [List.takeWhile_cons, h]

/-- The piece removed by a firing leading-empty-block cleanup has the
whitespace-plus-opener shape. -/
theorem bsShape_take (ap : Chars)
    (hn : ¬ stripLitLen (ap.drop (ap.takeWhile ws14).length) = 0) :
    bsShape (ap.take ((ap.takeWhile ws14).length
      + stripLitLen (ap.drop (ap.takeWhile ws14).length))) = true := by
  set tw := ap.takeWhile ws14 with htwdef
  set rest := ap.drop tw.length with hrestdef
  have hap : tw ++ rest = ap := takeWhile_append_drop_length ws14 ap
  have hlit : ∃ lit : Chars,
      (lit = chs "```" ∨ lit = chs "$$" ∨ lit = chs "\\[" ∨ lit = chs "``")
      ∧ stripLitLen rest = lit.length
      ∧ lit.isPrefixOf rest = true := by
    by_cases h1 : (chs "```").isPrefixOf rest = true
    · exact ⟨chs "```", by simp, by unfold stripLitLen; rw [if_pos h1]; rfl, h1⟩
    · by_cases h2 : (chs "$$").isPrefixOf rest = true
      · exact ⟨chs "$$", by simp,
          by unfold stripLitLen; rw [if_neg h1, if_pos h2]; rfl, h2⟩
      · by_cases h3 : (chs "\\[").isPrefixOf rest = true
        · exact ⟨chs "\\[", by simp,
            by unfold stripLitLen; rw [if_neg h1, if_neg h2, if_pos h3]; rfl, h3⟩
        · by_cases h4 : (chs "``").isPrefixOf rest = true
          · exact ⟨chs "``", by simp,
              by unfold stripLitLen; rw [if_neg h1, if_neg h2, if_neg h3, if_pos h4]; rfl, h4⟩
          · refine absurd ?_ hn
            unfold stripLitLen
            rw [if_neg h1, if_neg h2, if_neg h3, if_neg h4]
  obtain ⟨lit, hcases, hlen, hpref⟩ := hlit
  rw [hlen]
  have htake : rest.take lit.length = lit := isPrefixOf_eq_take hpref
  have hsplit : ap.take (tw.length + lit.length) = tw ++ lit := by
    rw [← hap, List.take_append, htake]
  rw [hsplit]
  have htwl : (tw ++ lit).takeWhile ws14 = tw := by
    have hall : tw.all ws14 = true := by rw [htwdef]; exact List.all_takeWhile
    rw [takeWhile_append_of_all _ _ hall]
    rcases hcases with h | h | h | h <;> rw [h] <;> simp [chs, List.takeWhile_cons, ws14]
  unfold bsShape
  rw [htwl]
  dsimp only
  rw [List.drop_left]
  rcases hcases with h | h | h | h <;> rw [h] <;> simp

/-- `advance` decomposes its input: the dropped pieces followed by the new
remainder reassemble the post-slice remainder. -/
theorem advance_decomp (m : Nat) (ap : Chars) (ca : Bool) (ce p1 : Option Chars) :
    (advance m ap ca ce p1).1 ++ (advance m ap ca ce p1).2.1
      ++ (advance m ap ca ce p1).2.2.1 = ap := by
  unfold advance
  dsimp only
  cases ca with
  | false => simp [List.takeWhile_append_dropWhile]
  | true =>
    simp only [eq_self_iff_true, if_true, and_true]
    by_cases hlt : ap.length < m
    · rw [if_pos hlt]
      obtain ⟨k, hk, he⟩ := strip_fst_drop ap ce p1
      dsimp only
      rw [he, List.length_drop]
      have h2 : ap.length - (ap.length - k) = k := by omega
      rw [h2]
      simp [List.take_append_drop]
    · rw [if_neg hlt]
      simp

/-- The whitespace dropped by `advance` is newline/space only, and the
cleanup-dropped text has the whitespace-plus-opener shape. -/
theorem advance_shapes (m : Nat) (ap : Chars) (ca : Bool) (ce p1 : Option Chars) :
    (advance m ap ca ce p1).1.all nlSp = true ∧
    bsShape (advance m ap ca ce p1).2.1 = true := by
  unfold advance
  dsimp only
  cases ca with
  | false =>
    constructor
    · simp [List.all_takeWhile]
    · simp [bsShape]
  | true =>
    simp only [eq_self_iff_true, if_true, and_true]
    by_cases hlt : ap.length < m
    · rw [if_pos hlt]
      refine ⟨by simp, ?_⟩
      unfold _strip_leading_empty_blocks
      dsimp only
      split
      · simp [bsShape]
      · next hnz =>
        dsimp only
        rw [List.length_drop]
        have htw : (ap.takeWhile ws14).length ≤ ap.length :=
          (List.takeWhile_prefix ws14).length_le
        have hsl := stripLitLen_le (ap.drop (ap.takeWhile ws14).length)
        rw [List.length_drop] at hsl
        have h2 : ap.length - (ap.length -
            ((ap.takeWhile ws14).length
              + stripLitLen (ap.drop (ap.takeWhile ws14).length)))
            = (ap.takeWhile ws14).length
              + stripLitLen (ap.drop (ap.takeWhile ws14).length) := by
          omega
        rw [h2]
        exact bsShape_take ap hnz
    · rw [if_neg hlt]
      exact ⟨by simp, by simp [bsShape]⟩

/-! ## Lemmas about `_handle_continuation` and one `stepRound` -/

theorem handle_none_none (x : Chars) : _handle_continuation x none none = (x, none) := rfl

theorem gcd_closerLike (cp : Chars) : closerLike (_get_closing_delimiter cp) = true := by
  unfold _get_closing_delimiter
  repeat' split
  all_goals decide

/-- `_handle_continuation` only appends one of the closing delimiters (or
nothing) to the chunk it is given. -/
theorem handle_append (c : Chars) (cont pd : Option Chars) :
    ∃ app, (_handle_continuation c cont pd).1 = c ++ app ∧ closerLike app = true := by
  unfold _handle_continuation
  cases cont with
  | some cp => exact ⟨_, rfl, gcd_closerLike cp⟩
  | none =>
    cases pd with
    | none => exact ⟨[], by simp, by decide⟩
    | some pdd =>
      dsimp only
      split
      · split
        · exact ⟨[], by simp, by decide⟩
        · exact ⟨_, rfl, gcd_closerLike pdd⟩
      · split
        · split
          · exact ⟨[], by simp, by decide⟩
          · exact ⟨_, rfl, gcd_closerLike pdd⟩
        · split
          · split
            · exact ⟨[], by simp, by decide⟩
            · exact ⟨_, rfl, gcd_closerLike pdd⟩
          · exact ⟨_, rfl, gcd_closerLike pdd⟩

theorem closerLike_length_le {l : Chars} (h : closerLike l = true) : l.length ≤ 4 := by
  unfold closerLike at h
  simp only [Bool.or_eq_true, beq_iff_eq] at h
  rcases h with ((((h | h) | h) | h) | h) | h <;> subst h <;> decide

/-- Projection facts of `stepRound` (all definitional). -/
theorem stepRound_fs (m : Nat) (t : Chars) (pend : Option Chars) :
    (stepRound m t pend).fs = find_safe_split_x t m := rfl

theorem stepRound_pendingIn (m : Nat) (t : Chars) (pend : Option Chars) :
    (stepRound m t pend).pendingIn = pend := rfl

theorem stepRound_defensive (m : Nat) (t : Chars) (pend : Option Chars) :
    (stepRound m t pend).defensive = ((find_safe_split_x t m).pos == 0) := rfl

theorem stepRound_posUsed (m : Nat) (t : Chars) (pend : Option Chars) :
    (stepRound m t pend).posUsed =
      (if (find_safe_split_x t m).pos = 0 then min t.length m
       else (find_safe_split_x t m).pos) := rfl

theorem stepRound_contEff (m : Nat) (t : Chars) (pend : Option Chars) :
    (stepRound m t pend).contEff =
      (if (find_safe_split_x t m).pos = 0 then none
       else (find_safe_split_x t m).continuation) := rfl

theorem stepRound_core (m : Nat) (t : Chars) (pend : Option Chars) :
    (stepRound m t pend).core = t.take (stepRound m t pend).posUsed := rfl

theorem stepRound_chunk (m : Nat) (t : Chars) (pend : Option Chars) :
    (stepRound m t pend).chunk =
      (_handle_continuation ((pend.getD []) ++ (stepRound m t pend).core)
        (stepRound m t pend).contEff pend).1 := rfl

theorem stepRound_posUsed_le (m : Nat) (t : Chars) (pend : Option Chars) :
    (stepRound m t pend).posUsed ≤ m := by
  rw [stepRound_posUsed]
  split
  · exact min_le_right _ _
  · exact fs_pos_le t m

theorem stepRound_posUsed_pos (m : Nat) (t : Chars) (pend : Option Chars)
    (hm : 1 ≤ m) (ht : t ≠ []) : 1 ≤ (stepRound m t pend).posUsed := by
  have hlen : 1 ≤ t.length := List.length_pos.mpr ht
  rw [stepRound_posUsed]
  split
  · exact le_min hlen hm
  · omega

/-- Each round decomposes the remainder it consumed. -/
theorem stepRound_decomp (m : Nat) (t : Chars) (pend : Option Chars) :
    (stepRound m t pend).core ++ (stepRound m t pend).wsDropped
      ++ (stepRound m t pend).bsDropped ++ (stepRound m t pend).rest = t := by
  have hadv := advance_decomp m (t.drop (stepRound m t pend).posUsed)
    ((stepRound m t pend).contEff.isSome || pend.isSome)
    (stepRound m t pend).contEff
    (_handle_continuation ((pend.getD []) ++ (stepRound m t pend).core)
      (stepRound m t pend).contEff pend).2
  calc (stepRound m t pend).core ++ (stepRound m t pend).wsDropped
      ++ (stepRound m t pend).bsDropped ++ (stepRound m t pend).rest
      = (stepRound m t pend).core ++ ((stepRound m t pend).wsDropped
        ++ (stepRound m t pend).bsDropped ++ (stepRound m t pend).rest) := by
        simp [List.append_assoc]
    _ = t.take (stepRound m t pend).posUsed ++ t.drop (stepRound m t pend).posUsed := by
        rw [stepRound_core]
        congr 1
    _ = t := List.take_append_drop _ t

/-- Shape facts of the dropped pieces of a round. -/
theorem stepRound_shapes (m : Nat) (t : Chars) (pend : Option Chars) :
    (stepRound m t pend).wsDropped.all nlSp = true ∧
    bsShape (stepRound m t pend).bsDropped = true :=
  advance_shapes m (t.drop (stepRound m t pend).posUsed)
    ((stepRound m t pend).contEff.isSome || pend.isSome)
    (stepRound m t pend).contEff
    (_handle_continuation ((pend.getD []) ++ (stepRound m t pend).core)
      (stepRound m t pend).contEff pend).2

/-- Strict progress of the assembler loop for `maxLen ≥ 1`. -/
theorem stepRound_progress (m : Nat) (t : Chars) (pend : Option Chars)
    (hm : 1 ≤ m) (ht : t ≠ []) :
    (stepRound m t pend).rest.length < t.length := by
  have hd := stepRound_decomp m t pend
  have hlen := congrArg List.length hd
  simp only [List.length_append] at hlen
  have hcore : 1 ≤ (stepRound m t pend).core.length := by
    rw [stepRound_core, List.length_take]
    have := stepRound_posUsed_pos m t pend hm ht
    have hlen1 : 1 ≤ t.length := List.length_pos.mpr ht
    omega
  omega

/-! ## Loop-level lemmas -/

theorem runSplit_nil (m fuel : Nat) (pend : Option Chars) :
    runSplit m fuel [] pend = ([], []) := by
  cases fuel <;> rfl

/-- The `fits` case of a round: the whole remainder becomes the chunk and
nothing is left. -/
theorem stepRound_fits (m : Nat) (t : Chars) (hlen : t.length ≤ m) (ht : t ≠ []) :
    (stepRound m t none).chunk = t ∧ (stepRound m t none).rest = [] := by
  have hfs : find_safe_split_x t m = ⟨t.length, none, .fits⟩ := by
    unfold find_safe_split_x; rw [if_pos hlen]
  have hpos : (stepRound m t none).posUsed = t.length := by
    rw [stepRound_posUsed, hfs]
    dsimp only
    rw [if_neg (fun h => ht (List.eq_nil_of_length_eq_zero h))]
  have hcore : (stepRound m t none).core = t := by
    rw [stepRound_core, hpos]
    exact List.take_length t
  have hce : (stepRound m t none).contEff = none := by
    rw [stepRound_contEff, hfs]
    dsimp only
    split <;> rfl
  have hchunk : (stepRound m t none).chunk = t := by
    rw [stepRound_chunk, hce, handle_none_none]
    dsimp only
    rw [hcore]
    exact List.nil_append t
  refine ⟨hchunk, ?_⟩
  have hd := stepRound_decomp m t none
  rw [hcore] at hd
  have hlen2 := congrArg List.length hd
  simp only [List.length_append] at hlen2
  exact List.eq_nil_of_length_eq_zero (by omega)

/-! ## Claim C5 -/

/-- Claim C5 counterexample: with `maxLen = 0` (the claim quantifies over
every `maxLen`) the loop body makes no progress on the remainder `"a"` —
the Python loop runs forever, appending empty chunks. -/
theorem c5_counterexample :
    (stepRound 0 (chs "a") none).rest = chs "a" ∧
    ¬ (stepRound 0 (chs "a") none).rest.length < (chs "a").length := by
  exact ⟨by decide, by decide⟩

/-- Claim C5 (amended: `maxLen ≥ 1`): each iteration of the main loop of
`split_markdown_into_chunks` strictly decreases the length of `remaining`,
and the loop finishes within `len(text)` iterations. -/
theorem c5_amended (m : Nat) (hm : 1 ≤ m) :
    (∀ (rem : Chars) (pend : Option Chars), rem ≠ [] →
      (stepRound m rem pend).rest.length < rem.length) ∧
    (∀ (t : Chars) (pend : Option Chars), (runSplit m t.length t pend).2 = []) := by
  constructor
  · exact fun rem pend h => stepRound_progress m rem pend hm h
  · have main : ∀ (fuel : Nat) (t : Chars) (pend : Option Chars),
        t.length ≤ fuel → (runSplit m fuel t pend).2 = [] := by
      intro fuel
      induction fuel with
      | zero =>
        intro t pend h
        have ht : t = [] := List.eq_nil_of_length_eq_zero (Nat.le_zero.mp h)
        subst ht
        rfl
      | succ f ih =>
        intro t pend h
        unfold runSplit
        by_cases he : t.isEmpty = true
        · rw [if_pos he]
          exact List.isEmpty_iff.mp he
        · rw [if_neg he]
          dsimp only
          apply ih
          have ht : t ≠ [] := fun hh => he (by simp [hh])
          have := stepRound_progress m t pend hm ht
          omega
    exact fun t pend => main t.length t pend le_rfl

/-- Claim C5 amended witness at `maxLen = 5`, `text = "hello world"`. -/
theorem c5_amended_witness :
    (stepRound 5 (chs "hello world") none).rest.length < (chs "hello world").length ∧
    (runSplit 5 (chs "hello world").length (chs "hello world") none).2 = [] :=
  ⟨(c5_amended 5 (by decide)).1 (chs "hello world") none (by decide),
   (c5_amended 5 (by decide)).2 (chs "hello world") none⟩

/-! ## Claim C4 -/

/-- Claim C4 counterexample: for `text = "$$aaaa"` and `maxLen = 3` (a
non-empty remainder, so the Assembler would call the Resolver on it), the
display-math smart split targets `maxLen - 3 = 0` and `find_safe_split`
returns position 0, so the Assembler's defensive branch fires. -/
theorem c4_counterexample :
    (chs "$$aaaa" : Chars) ≠ [] ∧
    find_safe_split (chs "$$aaaa") 3 = (0, some (chs "$$\n")) ∧
    (stepRound 3 (chs "$$aaaa") none).defensive = true := by
  exact ⟨by decide, by decide, by decide⟩

/-- Claim C4 (amended: `maxLen ≥ 4`): for every non-empty text,
`find_safe_split` returns a position in `(0, len(text)]`, and consequently
the Assembler's defensive branch is not taken. -/
theorem c4_amended (t : Chars) (m : Nat) (h1 : t ≠ []) (h4 : 4 ≤ m) :
    0 < (find_safe_split t m).1 ∧ (find_safe_split t m).1 ≤ t.length ∧
    (∀ pend, (stepRound m t pend).defensive = false) := by
  obtain ⟨hp, hl⟩ := fs_pos_bounds t m h1 h4
  refine ⟨hp, hl, fun pend => ?_⟩
  rw [stepRound_defensive]
  simp only [beq_eq_false_iff_ne, ne_eq]
  omega

/-- Claim C4 amended witness. -/
theorem c4_amended_witness :
    0 < (find_safe_split (chs "hello") 4).1 ∧
    (find_safe_split (chs "hello") 4).1 ≤ (chs "hello" : Chars).length ∧
    (∀ pend, (stepRound 4 (chs "hello") pend).defensive = false) :=
  c4_amended (chs "hello") 4 (by decide) (by decide)

/-! ## Claim C9 -/

/-- Claim C9: the empty text yields no chunks, and a non-empty text that
already fits is returned as the single chunk (in particular `"a"*L` with
`maxLen = L`). -/
theorem c9_base_cases :
    (∀ m : Nat, split_markdown_into_chunks [] m = []) ∧
    (∀ (t : Chars) (m : Nat), t ≠ [] → t.length ≤ m →
      split_markdown_into_chunks t m = [t]) := by
  constructor
  · intro m; rfl
  · intro t m ht hlen
    unfold split_markdown_into_chunks
    rw [if_neg (by simpa using ht)]
    obtain ⟨hchunk, hrest⟩ := stepRound_fits m t hlen ht
    obtain ⟨c, ts, rfl⟩ : ∃ c ts, t = c :: ts := by
      cases t with
      | nil => exact absurd rfl ht
      | cons c ts => exact ⟨c, ts, rfl⟩
    show (runSplit m (ts.length + 1) (c :: ts) none).1.map Round.chunk = [c :: ts]
    unfold runSplit
    rw [if_neg (by simp)]
    dsimp only
    rw [hrest, runSplit_nil]
    simp [hchunk]

/-- Claim C9 witness: the empty input, the spec's `"a"*L` exact-length
case with `L = 5`, and an ordinary short text. -/
theorem c9_base_cases_witness :
    split_markdown_into_chunks [] 7 = [] ∧
    split_markdown_into_chunks (List.replicate 5 'a') 5 = [List.replicate 5 'a'] ∧
    split_markdown_into_chunks (chs "hi") 10 = [chs "hi"] :=
  ⟨c9_base_cases.1 7,
   c9_base_cases.2 (List.replicate 5 'a') 5 (by decide) (by decide),
   c9_base_cases.2 (chs "hi") 10 (by decide) (by decide)⟩

/-! ## Claim C2 -/

/-- Claim C2 counterexample: for the oversized code fence `c2txt` with
`maxLen = 20`, the very first chunk (a smart split, not a forced split)
has length 21, and the continuation rounds emit 45-character chunks. -/
theorem c2_counterexample :
    (split_markdown_into_chunks c2txt 20).map List.length = [21, 45, 45, 31] ∧
    ((runSplit 20 c2txt.length c2txt none).1.map
      (fun r => (r.chunk.length, r.fs.tag, r.defensive))) =
      [(21, FsTag.smart BlockKind.code_fence, false), (45, FsTag.checked, false),
       (45, FsTag.checked, false), (31, FsTag.fits, false)] := by
  exact ⟨by decide, by decide⟩

/-- Claim C2 (amended): a chunk emitted by a round with no continuation
activity has length at most `maxLen`; in general a chunk can exceed
`maxLen` only by the prepended pending continuation plus the appended
closing delimiter (at most 4 characters). -/
theorem c2_length_bound (m fuel : Nat) (t : Chars) (pend : Option Chars)
    (r : Round) (hr : r ∈ (runSplit m fuel t pend).1) :
    (r.pendingIn = none → r.contEff = none → r.chunk.length ≤ m) ∧
    r.chunk.length ≤ (r.pendingIn.getD []).length + m + 4 := by
  induction fuel generalizing t pend with
  | zero => simp [runSplit] at hr
  | succ f ih =>
    unfold runSplit at hr
    split at hr
    · simp at hr
    · dsimp only at hr
      rcases List.mem_cons.mp hr with rfl | htail
      · constructor
        · intro hpi hce
          have hpend : pend = none := by rw [← stepRound_pendingIn m t pend]; exact hpi
          subst hpend
          rw [stepRound_chunk, hce, handle_none_none]
          dsimp only
          rw [stepRound_core]
          simp only [Option.getD_none, List.nil_append, List.length_take]
          exact le_trans (min_le_left _ _) (stepRound_posUsed_le m t none)
        · obtain ⟨app, happ, hcl⟩ := handle_append
            ((pend.getD []) ++ (stepRound m t pend).core)
            (stepRound m t pend).contEff pend
          have hch : (stepRound m t pend).chunk
              = ((pend.getD []) ++ (stepRound m t pend).core) ++ app := by
            rw [stepRound_chunk]; exact happ
          have h1 : (stepRound m t pend).core.length ≤ m := by
            rw [stepRound_core, List.length_take]
            exact le_trans (min_le_left _ _) (stepRound_posUsed_le m t pend)
          have h2 := closerLike_length_le hcl
          rw [hch, stepRound_pendingIn]
          simp only [List.length_append]
          omega
      · exact ih _ _ htail

/-- Claim C2 amended witness at a round with no continuation activity. -/
theorem c2_length_bound_witness :
    ((stepRound 10 c1w none).pendingIn = none → (stepRound 10 c1w none).contEff = none →
      (stepRound 10 c1w none).chunk.length ≤ 10) ∧
    (stepRound 10 c1w none).chunk.length ≤
      ((stepRound 10 c1w none).pendingIn.getD []).length + 10 + 4 :=
  c2_length_bound 10 c1w.length c1w none (stepRound 10 c1w none) (by decide)

/-! ## Claim C1 -/

/-- Claim C1 counterexample: the input `c1txt` is balanced in isolation,
yet the first chunk `"$ $$\n\n$$"` — emitted by the display-math smart
split, not by the forced-split path (tag `smart`, `defensive = false`) —
has an odd count of unescaped inline `$`, violating the balanced-chunk
invariant. -/
theorem c1_counterexample :
    unsafe_at c1txt = false ∧
    ((runSplit 20 c1txt.length c1txt none).1.map
        (fun r => (r.chunk, unsafe_at r.chunk, r.fs.tag, r.defensive))).head? =
      some (chs "$ $$\n\n$$", true, FsTag.smart BlockKind.display_math, false) ∧
    (split_markdown_into_chunks c1txt 20).head? = some (chs "$ $$\n\n$$") := by
  exact ⟨by decide, by decide, by decide⟩

/-- Claim C1 (amended): every chunk emitted by a round with no
continuation activity whose split position came from the resolver's
safety-checked path (`checked` tag, covering the rollback and the
initial-candidate return sites) is balanced in isolation, i.e. passes all
five delimiter-parity checks of `unsafe_at`. -/
theorem c1_checked_balanced (m fuel : Nat) (t : Chars) (pend : Option Chars)
    (r : Round) (hr : r ∈ (runSplit m fuel t pend).1)
    (hpi : r.pendingIn = none) (hce : r.contEff = none)
    (htag : r.fs.tag = FsTag.checked) :
    unsafe_at r.chunk = false := by
  induction fuel generalizing t pend with
  | zero => simp [runSplit] at hr
  | succ f ih =>
    unfold runSplit at hr
    split at hr
    · simp at hr
    · next hne =>
      dsimp only at hr
      rcases List.mem_cons.mp hr with rfl | htail
      · have ht : t ≠ [] := fun hh => hne (by simp [hh])
        have hlen : 1 ≤ t.length := List.length_pos.mpr ht
        have hpend : pend = none := by rw [← stepRound_pendingIn m t pend]; exact hpi
        subst hpend
        have htag' : (find_safe_split_x t m).tag = FsTag.checked := by
          rw [← stepRound_fs m t none]; exact htag
        obtain ⟨cand, hc1, hc2, hpos, _⟩ := find_checked_spec t m htag'
        have hmin : 0 < min cand t.length := lt_min hc1 hlen
        have hp0 : ¬ (find_safe_split_x t m).pos = 0 := by rw [hpos]; omega
        have hpu : (stepRound m t none).posUsed = min cand t.length := by
          rw [stepRound_posUsed, if_neg hp0, hpos]
        have htk : t.take (min cand t.length) = t.take cand := by
          rw [← List.take_take, List.take_length]
        rw [stepRound_chunk, hce, handle_none_none]
        dsimp only
        rw [stepRound_core, hpu, htk]
        simpa using hc2
      · exact ih _ _ htail

/-- Claim C1 amended witness: the first round on plain text goes through
the checked path and the chunk is balanced. -/
theorem c1_checked_balanced_witness :
    unsafe_at (stepRound 10 c1w none).chunk = false :=
  c1_checked_balanced 10 c1w.length c1w none (stepRound 10 c1w none)
    (by decide) (by decide) (by decide) (by decide)

/-! ## Claim C3 -/

/-- A round's chunk is exactly pending-continuation + raw core slice +
appended closer (one of the closing-delimiter table entries or nothing). -/
theorem stepRound_chunk_decomp (m : Nat) (t : Chars) (pend : Option Chars) :
    (stepRound m t pend).chunk = (pend.getD []) ++ (stepRound m t pend).core
      ++ (stepRound m t pend).chunk.drop
          ((pend.getD []).length + (stepRound m t pend).core.length) ∧
    closerLike ((stepRound m t pend).chunk.drop
      ((pend.getD []).length + (stepRound m t pend).core.length)) = true := by
  obtain ⟨app, happ, hcl⟩ := handle_append
    ((pend.getD []) ++ (stepRound m t pend).core) (stepRound m t pend).contEff pend
  have hch : (stepRound m t pend).chunk
      = ((pend.getD []) ++ (stepRound m t pend).core) ++ app := by
    rw [stepRound_chunk]; exact happ
  have hdrop : (stepRound m t pend).chunk.drop
      ((pend.getD []).length + (stepRound m t pend).core.length) = app := by
    rw [hch, ← List.length_append, List.drop_left]
  exact ⟨by rw [hdrop]; exact hch, by rw [hdrop]; exact hcl⟩

/-- Claim C3 (amended): concatenating the cores of all rounds (the chunks
with the synthetic prepended continuation and appended closing delimiter
stripped — the third conjunct certifies that decomposition) together with
the leftover reassembles the input, up to the per-round dropped pieces,
each of which is either a run of newline/space characters removed at a
natural boundary or a leading-empty-block cleanup removal of whitespace
plus one opener literal (which may contain original non-whitespace
delimiter characters — hence exact non-whitespace reconstruction fails,
see the counterexample); no character is duplicated. -/
theorem c3_reconstruction (m fuel : Nat) (t : Chars) (pend : Option Chars) :
    ((runSplit m fuel t pend).1.map
        (fun r => r.core ++ r.wsDropped ++ r.bsDropped)).flatten
      ++ (runSplit m fuel t pend).2 = t ∧
    ((runSplit m fuel t pend).1.all
      (fun r => r.wsDropped.all nlSp && bsShape r.bsDropped)) = true ∧
    ((runSplit m fuel t pend).1.all
      (fun r => (r.chunk == (r.pendingIn.getD []) ++ r.core
            ++ r.chunk.drop ((r.pendingIn.getD []).length + r.core.length))
        && closerLike (r.chunk.drop
            ((r.pendingIn.getD []).length + r.core.length)))) = true := by
  induction fuel generalizing t pend with
  | zero => simp [runSplit]
  | succ f ih =>
    unfold runSplit
    split
    · next he => simpa using List.isEmpty_iff.mp he
    · dsimp only
      obtain ⟨ih1, ih2, ih3⟩ := ih (stepRound m t pend).rest (stepRound m t pend).pendingOut
      refine ⟨?_, ?_, ?_⟩
      · simp only [List.append_assoc] at ih1
        simp only [List.map_cons, List.flatten_cons, List.append_assoc]
        rw [ih1]
        have hd := stepRound_decomp m t pend
        simpa [List.append_assoc] using hd
      · simp only [List.all_cons, Bool.and_eq_true]
        obtain ⟨hws, hbs⟩ := stepRound_shapes m t pend
        exact ⟨⟨hws, hbs⟩, ih2⟩
      · simp only [List.all_cons, Bool.and_eq_true]
        obtain ⟨hd1, hd2⟩ := stepRound_chunk_decomp m t pend
        refine ⟨⟨?_, ?_⟩, ih3⟩
        · rw [stepRound_pendingIn]
          exact beq_iff_eq.mpr hd1
        · rw [stepRound_pendingIn]
          exact hd2

/-- Claim C3 counterexample: for the display-math input `c3txt` with
`maxLen = 20`, the loop completes, yet the closing `$$` of the original
text is deleted by the leading-empty-block cleanup: the concatenation of
the stripped chunks (the cores) misses it, so the non-whitespace content
of the input is not reproduced. -/
theorem c3_counterexample :
    (runSplit 20 c3txt.length c3txt none).2 = [] ∧
    ((runSplit 20 c3txt.length c3txt none).1.map Round.core) =
      [chs "$$\n", List.replicate 20 'B', List.replicate 20 'B'] ∧
    ((runSplit 20 c3txt.length c3txt none).1.map Round.chunk) =
      [chs "$$\n\n$$", chs "$$\n" ++ List.replicate 20 'B' ++ chs "\n$$",
       chs "$$\n" ++ List.replicate 20 'B' ++ chs "\n$$"] ∧
    ¬ (((runSplit 20 c3txt.length c3txt none).1.map Round.core).flatten.filter
        (fun c => !(ws14 c)) = c3txt.filter (fun c => !(ws14 c))) := by
  exact ⟨by decide, by decide, by decide, by decide⟩

/-! ## Claim C6 -/

/-- Claim C6: behaviour of the rollback at `c6txt` with `maxLen = 18`.
The initial candidate 16 is unsafe (it falls inside the display math); a
genuine paragraph break `"\n\n"` sits at offset 2, strictly before the
candidate, and the prefix of length 4 ending just past it is safe — so
the claimed paragraph-break-first rollback would return `(4, none)`.  The
code instead returns `(7, none)`: its paragraph-break step searches for
the literal four-character text backslash-n-backslash-n (the source's raw
string `r"\n\n"`), never matches a real blank line, and falls through to
the line-break step. -/
theorem c6_code_divergence :
    initial_candidate c6txt 18 = 16 ∧
    unsafe_at (c6txt.take 16) = true ∧
    rfindSub c6txt (chs "\n\n") 0 15 = some 2 ∧
    unsafe_at (c6txt.take 4) = false ∧
    find_safe_split c6txt 18 = (7, none) := by
  exact ⟨by decide, by decide, by decide, by decide, by decide⟩

/-! ## Claim C7 -/

/-- Claim C7 counterexample: an inline-math smart split whose region
contains a space returns the position just after that space (6), not
`maxLen - 1 = 19`; the continuation is still exactly `"$"`. -/
theorem c7_counterexample :
    (find_safe_split_x c7txt 20).tag = FsTag.smart BlockKind.inline_math ∧
    (find_safe_split_x c7txt 20).continuation = some (chs "$") ∧
    (find_safe_split_x c7txt 20).pos = 6 ∧
    ¬ ((find_safe_split_x c7txt 20).pos = 20 - 1) := by
  exact ⟨by decide, by decide, by decide, by decide⟩

/-- Claim C7 (amended): an inline-code smart split always cuts at
`maxLen - 1` with continuation `` "`" ``; an inline-math smart split
always has continuation `"$"`, but cuts at `maxLen - 1` only when the
text has no newline, `+`, `-`, `=`, `\` or space before `maxLen - 1`
(otherwise it cuts just after the found break). -/
theorem c7_amended (t : Chars) (m : Nat) :
    ((find_safe_split_x t m).tag = FsTag.smart BlockKind.inline_code →
      (find_safe_split_x t m).pos = m - 1 ∧
      (find_safe_split_x t m).continuation = some (chs "`")) ∧
    ((find_safe_split_x t m).tag = FsTag.smart BlockKind.inline_math →
      (find_safe_split_x t m).continuation = some (chs "$") ∧
      (rfindSub t (chs "\n") 0 (m - 1) = none →
       rfindSub t (chs "+") 0 (m - 1) = none →
       rfindSub t (chs "-") 0 (m - 1) = none →
       rfindSub t (chs "=") 0 (m - 1) = none →
       rfindSub t (chs "\\\\") 0 (m - 1) = none →
       rfindSub t (chs " ") 0 (m - 1) = none →
       (find_safe_split_x t m).pos = m - 1)) := by
  constructor
  · intro h
    obtain ⟨bs, hdet, hpos, hcont⟩ := find_smart_spec t m _ h
    exact ⟨by rw [hpos]; rfl, by rw [hcont]; rfl⟩
  · intro h
    obtain ⟨bs, hdet, hpos, hcont⟩ := find_smart_spec t m _ h
    constructor
    · rw [hcont]
      show some (split_latex_equations t m bs (chs "$") 1).2 = some (chs "$")
      rw [split_latex_equations_snd]
    · intro h1 h2 h3 h4 h5 h6
      rw [hpos]
      show (split_latex_equations t m bs (chs "$") 1).1 = m - 1
      unfold split_latex_equations
      dsimp only
      have hlen1 : (chs "$" : Chars).length = 1 := rfl
      rw [hlen1, h1]
      simp only [firstBreak, h2, h3, h4, h5, h6]

/-- Claim C7 amended witness: boundary-free inline-code and inline-math
regions. -/
theorem c7_amended_witness :
    ((find_safe_split_x c7w 10).pos = 10 - 1 ∧
      (find_safe_split_x c7w 10).continuation = some (chs "`")) ∧
    ((find_safe_split_x c7w2 10).continuation = some (chs "$") ∧
      (find_safe_split_x c7w2 10).pos = 10 - 1) :=
  ⟨(c7_amended c7w 10).1 (by decide),
   ⟨((c7_amended c7w2 10).2 (by decide)).1,
    ((c7_amended c7w2 10).2 (by decide)).2 (by decide) (by decide) (by decide)
      (by decide) (by decide) (by decide)⟩⟩

/-! ## Claim C8 -/

/-- Claim C8 counterexample: with a fence continuation pending and no new
continuation, the chunk `"a```b```c"` has an even number of ``` ``` ```
markers, so the code clears the pending state and appends nothing — yet
the chunk, even after trimming trailing whitespace, does not end with the
natural terminator ``` ``` ```, where the claim requires the closer to be
appended and the pending state kept. -/
theorem c8_counterexample :
    _handle_continuation (chs "a```b```c") none (some (chs "```\n"))
      = (chs "a```b```c", none) ∧
    (chs "```").isSuffixOf (rstripTrailing (chs "a```b```c")) = false := by
  exact ⟨by decide, by decide⟩

/-- Claim C8 (amended): in the continuation reconciliation, when a
pending fence / display-math / bracket-math continuation is carried and
the resolver returned no new continuation, nothing is appended and the
pending state is cleared exactly when the count of occurrences of the
kind's pattern in the chunk is even — ``` ``` ``` for fences, `$$`
(escaped occurrences included) for display math, and the two-backslash
pattern `\]` (the source's `r"\\]"`) for bracket math — not when the
trimmed chunk ends with the natural terminator; all other pending kinds
always get the closer appended and stay pending. -/
theorem c8_amended (chunk pd : Chars) :
    ((chs "```").isPrefixOf pd = true →
      _handle_continuation chunk none (some pd) =
        (if is_balanced (chs "```") chunk then (chunk, none)
         else (chunk ++ chs "\n```", some pd))) ∧
    ((chs "```").isPrefixOf pd = false → (chs "$$").isPrefixOf pd = true →
      _handle_continuation chunk none (some pd) =
        (if is_balanced (chs "$$") chunk then (chunk, none)
         else (chunk ++ chs "\n$$", some pd))) ∧
    ((chs "```").isPrefixOf pd = false → (chs "$$").isPrefixOf pd = false →
      (chs "\\[").isPrefixOf pd = true →
      _handle_continuation chunk none (some pd) =
        (if is_balanced (chs "\\\\]") chunk then (chunk, none)
         else (chunk ++ chs "\n\\]", some pd))) ∧
    ((chs "```").isPrefixOf pd = false → (chs "$$").isPrefixOf pd = false →
      (chs "\\[").isPrefixOf pd = false →
      _handle_continuation chunk none (some pd) =
        (chunk ++ _get_closing_delimiter pd, some pd)) := by
  refine ⟨?_, ?_, ?_, ?_⟩
  · intro h1
    have hg : _get_closing_delimiter pd = chs "\n```" := by
      unfold _get_closing_delimiter; rw [if_pos h1]
    unfold _handle_continuation
    dsimp only
    rw [if_pos h1, hg]
  · intro h1 h2
    have hg : _get_closing_delimiter pd = chs "\n$$" := by
      unfold _get_closing_delimiter
      rw [if_neg (by simp [h1]), if_pos h2]
    unfold _handle_continuation
    dsimp only
    rw [if_neg (by simp [h1]), if_pos h2, hg]
  · intro h1 h2 h3
    have hg : _get_closing_delimiter pd = chs "\n\\]" := by
      unfold _get_closing_delimiter
      rw [if_neg (by simp [h1]), if_neg (by simp [h2]), if_pos h3]
    unfold _handle_continuation
    dsimp only
    rw [if_neg (by simp [h1]), if_neg (by simp [h2]), if_pos h3, hg]
  · intro h1 h2 h3
    unfold _handle_continuation
    dsimp only
    rw [if_neg (by simp [h1]), if_neg (by simp [h2]), if_neg (by simp [h3])]

/-- Claim C8 amended witness. -/
theorem c8_amended_witness :
    _handle_continuation (chs "x") none (some (chs "```\n")) =
      (if is_balanced (chs "```") (chs "x") then ((chs "x" : Chars), none)
       else (chs "x" ++ chs "\n```", some (chs "```\n"))) :=
  (c8_amended (chs "x") (chs "```\n")).1 (by decide)

/-! ## Claim C10 -/

theorem prefix_self_append (l r : Chars) : l.isPrefixOf (l ++ r) = true := by
  rw [List.isPrefixOf_iff_prefix]
  exact List.prefix_append l r

/-- The fence language tag consists of word characters only. -/
theorem fenceLanguage_word (l : Chars) : (fenceLanguage l).all isWordChar = true := by
  induction l with
  | nil => rfl
  | cons c rest ih =>
    unfold fenceLanguage
    split
    · exact List.all_takeWhile
    · exact ih

/-- Claim C10: every continuation returned by `find_safe_split` has one of
the five shapes (fence reopener with a word-character language tag,
display-math reopener, bracket-math reopener, bare `$`, bare backtick);
`_get_closing_delimiter` maps these shapes to their closing delimiters and
returns the empty string only on strings of none of these shapes. -/
theorem c10_continuation_shapes :
    (∀ (t : Chars) (m : Nat) (c : Chars),
      (find_safe_split t m).2 = some c → contShape c) ∧
    (∀ w : Chars, w.all isWordChar = true →
      _get_closing_delimiter (chs "```" ++ w ++ chs "\n") = chs "\n```") ∧
    _get_closing_delimiter (chs "$$\n") = chs "\n$$" ∧
    _get_closing_delimiter (chs "\\[\n") = chs "\n\\]" ∧
    _get_closing_delimiter (chs "$") = chs "$" ∧
    _get_closing_delimiter (chs "`") = chs "`" ∧
    (∀ c : Chars, _get_closing_delimiter c = [] → ¬ contShape c) := by
  refine ⟨?_, ?_, by decide, by decide, by decide, by decide, ?_⟩
  · intro t m c h
    have h' : (find_safe_split_x t m).continuation = some c := h
    rcases find_safe_split_x_cases t m with ⟨_, he⟩ | ⟨_, _, _, _, he⟩ | he
      | ⟨bk, bs, _, _, _, he⟩ | ⟨_, _, he⟩
    · rw [he] at h'; simp at h'
    · rw [he] at h'; simp at h'
    · rw [he] at h'; simp at h'
    · rw [he] at h'
      dsimp only at h'
      cases bk with
      | code_fence =>
        unfold smart_split_block at h'
        dsimp only at h'
        split at h'
        · next hl =>
          cases h'
          refine Or.inr (Or.inr (Or.inr (Or.inr ⟨[], rfl, ?_⟩)))
          decide
        · cases h'
          refine Or.inr (Or.inr (Or.inr (Or.inr
            ⟨fenceLanguage ((t.drop bs).take 20), fenceLanguage_word _, ?_⟩)))
          rfl
      | display_math =>
        unfold smart_split_block at h'
        dsimp only at h'
        rw [split_latex_equations_snd] at h'
        cases h'
        exact Or.inr (Or.inr (Or.inl rfl))
      | bracket_math =>
        unfold smart_split_block at h'
        dsimp only at h'
        rw [split_latex_equations_snd] at h'
        cases h'
        exact Or.inr (Or.inr (Or.inr (Or.inl rfl)))
      | inline_math =>
        unfold smart_split_block at h'
        dsimp only at h'
        rw [split_latex_equations_snd] at h'
        cases h'
        exact Or.inl rfl
      | inline_code =>
        unfold smart_split_block at h'
        dsimp only at h'
        cases h'
        exact Or.inr (Or.inl rfl)
    · rw [he] at h'; simp at h'
  · intro w hw
    unfold _get_closing_delimiter
    rw [List.append_assoc, if_pos (prefix_self_append (chs "```") (w ++ chs "\n"))]
  · intro c hc hs
    rcases hs with h | h | h | h | ⟨w, hw, h⟩
    · rw [h] at hc; exact absurd hc (by decide)
    · rw [h] at hc; exact absurd hc (by decide)
    · rw [h] at hc; exact absurd hc (by decide)
    · rw [h] at hc; exact absurd hc (by decide)
    · rw [h] at hc
      unfold _get_closing_delimiter at hc
      rw [List.append_assoc, if_pos (prefix_self_append (chs "```") (w ++ chs "\n"))] at hc
      exact absurd hc (by decide)

/-- Claim C10 witness: a smart split of an inline-code region returns the
bare-backtick continuation, whose shape the theorem certifies; the
mapping cases are applied at a concrete fence language tag. -/
theorem c10_continuation_shapes_witness :
    contShape (chs "`") ∧
    _get_closing_delimiter (chs "```" ++ chs "py" ++ chs "\n") = chs "\n```" ∧
    ¬ contShape (chs "xx") :=
  ⟨c10_continuation_shapes.1 c7w 10 (chs "`") (by decide),
   c10_continuation_shapes.2.1 (chs "py") (by decide),
   c10_continuation_shapes.2.2.2.2.2.2 (chs "xx") (by decide)⟩

end TgSplit
